import Mathlib

/-!
# Verification of the ECG R-peak detection and HRV pipeline

Shallow embedding of `src/code/biosignal-processing/ecg_heartrate.py` over exact
rational arithmetic (IEEE floats are idealized as exact rationals, matching the
spec's "in exact real arithmetic" reading; float literals 0.6, 0.15, 0.04, 0.4
become the exact rationals they denote).

External numpy/scipy primitives that the source calls (`np.diff`, squaring,
`np.convolve`, `np.max`, `scipy.signal.find_peaks`, `np.trapz`, band masks) are
embedded from their documented and implemented semantics.  Two library stages
whose values are transcendental are treated as function parameters:

* `scipy.signal.butter` + `scipy.signal.filtfilt` (Butterworth coefficient
  design uses tangents; zero-phase filtering applies the filter forward and
  backward): the whole filter stage becomes a parameter
  `filt : List Q → List Q` of `detect_r_peaks`.  Facts about the real filter
  that a theorem needs (length preservation, linearity, annihilation of
  constant inputs — the bandpass numerator has an exact zero at DC) appear as
  explicit hypotheses on `filt`.  The validation that `butter` performs on the
  critical frequencies and the `filtfilt` input-length check are embedded
  exactly, since they are plain comparisons.
* `scipy.signal.welch`: becomes a function parameter of `compute_hrv_metrics`
  returning a frequency-bin list and a power-spectral-density list.

numpy produces NaN (with a RuntimeWarning, never an exception) for the mean or
std of an empty array and for division by a zero length; NaN-or-value results
are embedded as `Option ℚ` (or `Option ℝ` where a square root is taken),
`none` standing for NaN.
-/

namespace ECG

/-- Python `int()` applied to a rational: truncation toward zero
(`int(2.7) = 2`, `int(-2.7) = -2`). -/
def pyTrunc (q : ℚ) : ℤ :=
  if q < 0 then -Int.floor (-q) else Int.floor q

/-- `np.diff`: `out[i] = a[i+1] - a[i]`, length one less than the input. -/
def pyDiff (l : List ℚ) : List ℚ :=
  List.zipWith (fun a b => b - a) l l.tail

/-- `np.mean`: arithmetic mean; NaN (`none`) on the empty array. -/
def pyMean (l : List ℚ) : Option ℚ :=
  if l.isEmpty then none else some (l.sum / l.length)

/-- Population variance `np.mean(|x - np.mean(x)|^2)`; NaN (`none`) on empty. -/
def pyVar (l : List ℚ) : Option ℚ :=
  (pyMean l).bind fun m => pyMean (l.map fun x => (x - m) ^ 2)

/-- `np.std`: square root of the population variance; NaN (`none`) on empty. -/
noncomputable def pyStd (l : List ℚ) : Option ℝ :=
  (pyVar l).map fun v => Real.sqrt (v : ℝ)

/-- `np.trapz(y, x)` over already-zipped `(x, y)` sample pairs:
`Σ (x[i+1] - x[i]) * (y[i] + y[i+1]) / 2`; `0` for fewer than two samples. -/
def trapzPairs : List (ℚ × ℚ) → ℚ
  | a :: b :: rest => (b.1 - a.1) * (a.2 + b.2) / 2 + trapzPairs (b :: rest)
  | _ => 0

/-- Band mask plus alignment: `freqs >= lo & freqs <= hi` applied to the zipped
`(freqs, psd)` arrays (lines 116 and 120 of the source). -/
def maskBand (lo hi : ℚ) (freqs psd : List ℚ) : List (ℚ × ℚ) :=
  (freqs.zip psd).filter fun p => decide (lo ≤ p.1 ∧ p.1 ≤ hi)

/-- Type of the external spectral estimator `scipy.signal.welch`: arguments are
the interval series, the effective sampling rate, and `nperseg`; the result is
the pair (frequency bins, power spectral density). -/
def WelchFn : Type := List ℚ → ℚ → ℕ → List ℚ × List ℚ

/-- `compute_heart_rate` (lines 57-79): RR intervals `np.diff(r_peaks) / fs` in
seconds, then instantaneous rate `60.0 / rr` in BPM, elementwise.  The source
raises nothing; with fewer than 2 peaks every step maps an empty array to an
empty array. -/
def compute_heart_rate (r_peaks : List ℚ) (fs : ℚ) : List ℚ :=
  ((pyDiff r_peaks).map (fun d => d / fs)).map (fun rr => 60 / rr)

/-- Result record of `compute_hrv_metrics`: the Python dict.  The three
frequency-domain keys are `none` exactly when absent from the dict; the
time-domain keys are always present, `none` standing for a NaN value. -/
structure HRV where
  mean_rr : Option ℚ
  std_rr : Option ℝ
  rmssd : Option ℝ
  sdsd : Option ℝ
  nn50 : ℕ
  pnn50 : Option ℚ
  lf_power : Option ℚ
  hf_power : Option ℚ
  lf_hf_ratio : Option ℚ

/-- `compute_hrv_metrics` (lines 82-126).  `rr` is in milliseconds.  The
frequency-domain block runs only when `len(rr) > 10`; `welch` is the external
spectral estimator (see the module comment) called with
`fs = 1000.0 / mean_rr` and `nperseg = min(256, len(rr))`; `np.trapz`
integrates the PSD over the LF band 0.04-0.15 Hz and the HF band 0.15-0.4 Hz,
and the LF/HF ratio is `lf / hf if hf > 0 else 0`.  The source raises nothing
anywhere. -/
noncomputable def compute_hrv_metrics (welch : WelchFn) (r_peaks : List ℚ) (fs : ℚ) :
    HRV :=
  let rr := (pyDiff r_peaks).map fun d => d / fs * 1000
  let drr := pyDiff rr
  let nn50 := (drr.filter fun d => decide (50 < |d|)).length
  let freq : Option (ℚ × ℚ × ℚ) :=
    if 10 < rr.length then
      let m := (pyMean rr).getD 0
      let fp := welch rr (1000 / m) (min 256 rr.length)
      let lf := trapzPairs (maskBand (4/100) (15/100) fp.1 fp.2)
      let hf := trapzPairs (maskBand (15/100) (4/10) fp.1 fp.2)
      some (lf, hf, if 0 < hf then lf / hf else 0)
    else none
  { mean_rr := pyMean rr
    std_rr := pyStd rr
    rmssd := (pyMean (drr.map fun d => d ^ 2)).map fun v => Real.sqrt (v : ℝ)
    sdsd := pyStd drr
    nn50 := nn50
    pnn50 := if rr.isEmpty then none else some ((nn50 : ℚ) / rr.length * 100)
    lf_power := freq.map (·.1)
    hf_power := freq.map (·.2.1)
    lf_hf_ratio := freq.map (·.2.2) }

/-- A concrete (degenerate) spectral estimator used to instantiate the `welch`
parameter in closed witnesses and counterexamples. -/
def welch0 : WelchFn := fun _ _ _ => ([], [])

/-! ## The R-peak detection pipeline

`detect_r_peaks` (lines 16-54).  The `scipy.signal.butter`/`filtfilt` stage is
a function parameter (see the module comment); their eager validation is
embedded: `butter` rejects critical frequencies with `Wn = 2*f/fs` outside
`(0, 1)`, and `filtfilt` rejects inputs of length at most
`padlen = 3 * max(len(a), len(b)) = 15` (an order-2 bandpass has 5 numerator
and 5 denominator coefficients).  Downstream of the filter everything is
embedded exactly: `np.diff`, squaring, `np.convolve(..., mode='same')`,
`np.max`, and `scipy.signal.find_peaks` with its plateau local-maxima scan,
height selection and highest-peak-first minimal-distance pruning. -/

/-- Dot product of two lists (shorter length wins). -/
def dot : List ℚ → List ℚ → ℚ
  | x :: xs, y :: ys => x * y + dot xs ys
  | _, _ => 0

/-- `np.convolve(a, v)` (mode `'full'`), length `len(a) + len(v) - 1`:
entry `k` is `Σ_j a[j] * v[k - j]`, here written as the dot product of the
reversed first `k+1` samples of `a` against `v` shifted by `k + 1 - len(a)`. -/
def convFull (a v : List ℚ) : List ℚ :=
  (List.range (a.length + v.length - 1)).map fun k =>
    dot ((a.take (k + 1)).reverse) (v.drop (k + 1 - a.length))

/-- `np.convolve(a, v, mode='same')`: the centered slice of the full
convolution, of length `max(len(a), len(v))`, starting at
`(min(len(a), len(v)) - 1) / 2`. -/
def convSame (a v : List ℚ) : List ℚ :=
  ((convFull a v).drop ((min a.length v.length - 1) / 2)).take (max a.length v.length)

/-- `np.max`.  numpy raises on an empty array; in the pipeline the argument is
nonempty whenever the filter preserves the (already checked, at least 16
sample) input length, so the junk value 0 for `[]` is unreachable there. -/
def npMax : List ℚ → ℚ
  | [] => 0
  | x :: xs => xs.foldl max x

/-- Inner plateau scan of scipy's `_local_maxima_1d`: starting at `j`, advance
while `j` is not the last valid position (`j + 1 < len x`) and `x[j] == x[i]`.
Structural fuel (`len x` suffices) replaces the C loop. -/
def plateauEnd (x : List ℚ) (i : ℕ) : ℕ → ℕ → ℕ
  | j, 0 => j
  | j, fuel + 1 =>
    if j + 1 < x.length ∧ x.getD j 0 = x.getD i 0 then plateauEnd x i (j + 1) fuel else j

/-- Outer loop of scipy's `_local_maxima_1d`, from sample `i` with structural
fuel: a maximum is found when `x[i-1] < x[i]`, the following plateau of equal
values ends at `ia - 1`, and `x[ia] < x[i]`; the reported index is the plateau
midpoint `(i + ia - 1) / 2`, and the scan resumes at `ia + 1`. -/
def localMaximaAux (x : List ℚ) : ℕ → ℕ → List ℕ
  | _, 0 => []
  | i, fuel + 1 =>
    if i + 1 < x.length then
      if x.getD (i - 1) 0 < x.getD i 0 then
        if x.getD (plateauEnd x i (i + 1) x.length) 0 < x.getD i 0 then
          ((i + (plateauEnd x i (i + 1) x.length - 1)) / 2)
            :: localMaximaAux x (plateauEnd x i (i + 1) x.length + 1) fuel
        else localMaximaAux x (i + 1) fuel
      else localMaximaAux x (i + 1) fuel
    else []

/-- scipy `_local_maxima_1d`: indices of interior local maxima (plateaus
reported at their midpoint), scanned from index 1. -/
def localMaxima (x : List ℚ) : List ℕ := localMaximaAux x 1 x.length

/-- Insertion of one element into a sorted list under a boolean comparator. -/
def insertBy (le : ℕ → ℕ → Bool) (a : ℕ) : List ℕ → List ℕ
  | [] => [a]
  | b :: t => if le a b then a :: b :: t else b :: insertBy le a t

/-- Insertion sort under a boolean comparator. -/
def sortBy (le : ℕ → ℕ → Bool) : List ℕ → List ℕ
  | [] => []
  | a :: t => insertBy le a (sortBy le t)

/-- Priority order of scipy's `_select_by_peak_distance`: peak positions by
descending height (`np.argsort` of the heights, traversed from the end).
`np.argsort` leaves the order of equal heights unspecified (introsort); this
embedding fixes the tie-break to smaller index first, which no theorem below
depends on. -/
def argsortDesc (vals : List ℚ) : List ℕ :=
  sortBy (fun a b => decide (vals.getD b 0 < vals.getD a 0 ∨
    (vals.getD a 0 = vals.getD b 0 ∧ a ≤ b))) (List.range vals.length)

/-- One round of scipy's `_select_by_peak_distance`: if peak `j` is still kept,
discard every other peak strictly within `d` samples of it.  (scipy scans
outward from `j` and stops at the first peak at distance at least `d`; on the
sorted peak lists produced by `localMaxima` that early exit removes exactly
the same set, the peaks strictly within `d`.) -/
def nmsStep (peaks : List ℕ) (d : ℤ) (keep : List Bool) (j : ℕ) : List Bool :=
  if keep.getD j false then
    (List.range keep.length).map fun k =>
      if k ≠ j ∧ |((peaks.getD k 0 : ℤ) - (peaks.getD j 0 : ℤ))| < d then false
      else keep.getD k false
  else keep

/-- scipy `_select_by_peak_distance`: process peaks from highest to lowest
priority, keeping a boolean mask. -/
def nmsKeep (peaks : List ℕ) (prio : List ℕ) (d : ℤ) : List Bool :=
  prio.foldl (nmsStep peaks d) (List.replicate peaks.length true)

/-- Select the entries of `peaks` whose mask bit is set. -/
def applyKeep (peaks : List ℕ) (keep : List Bool) : List ℕ :=
  (peaks.zip keep).filterMap fun pb => if pb.2 then some pb.1 else none

/-- `scipy.signal.find_peaks(x, height, distance)`: local maxima, then the
height filter `height <= x[peak]`, then minimal-distance pruning by descending
height. -/
def findPeaks (x : List ℚ) (height : ℚ) (distance : ℤ) : List ℕ :=
  let p0 := localMaxima x
  let p1 := p0.filter fun p => decide (height ≤ x.getD p 0)
  applyKeep p1 (nmsKeep p1 (argsortDesc (p1.map fun p => x.getD p 0)) distance)

/-- Failure modes of `detect_r_peaks`, named after the spec's error taxonomy;
in the Python source each is a `ValueError` raised eagerly by scipy
(`butter` critical-frequency validation, `filtfilt` minimum input length,
`find_peaks` distance validation). -/
inductive PyError
  | invalidBand
  | insufficientData
  | invalidDistance
deriving DecidableEq

/-- `scipy.signal.butter(2, [5, 15], btype='band', fs=fs)` validation: the
normalized critical frequencies `Wn = 2*5/fs` and `2*15/fs` must lie strictly
inside `(0, 1)` (the Nyquist constraint). -/
def butterBandCheck (fs : ℚ) : Bool :=
  decide (0 < 2 * 5 / fs) && decide (2 * 5 / fs < 1) &&
  decide (0 < 2 * 15 / fs) && decide (2 * 15 / fs < 1)

/-- Line 45: `window_size = int(0.15 * fs)` — truncation toward zero. -/
def window_size (fs : ℚ) : ℤ := pyTrunc (15/100 * fs)

/-- Lines 38-46, the nonlinear enhancer: first difference, squaring, and
`np.convolve(squared, np.ones(window_size)/window_size, mode='same')`. -/
def enhance (filtered : List ℚ) (fs : ℚ) : List ℚ :=
  convSame ((pyDiff filtered).map fun t => t ^ 2)
    (List.replicate (window_size fs).toNat (1 / (window_size fs : ℚ)))

/-- `detect_r_peaks` (lines 16-54) with the filter stage as the parameter
`filt`: validate the band (scipy `butter`), validate the input length against
`padlen = 15` (scipy `filtfilt`), filter, enhance, take the global threshold
`threshold_factor * np.max(integrated)`, validate `distance >= 1` and find
peaks with `distance = int(0.6 * fs)` (scipy `find_peaks`). -/
def detect_r_peaks (filt : List ℚ → List ℚ) (ecg : List ℚ) (fs threshold_factor : ℚ) :
    Except PyError (List ℕ) :=
  if butterBandCheck fs = false then .error .invalidBand
  else if ecg.length ≤ 15 then .error .insufficientData
  else if pyTrunc (6/10 * fs) < 1 then .error .invalidDistance
  else .ok (findPeaks (enhance (filt ecg) fs)
    (threshold_factor * npMax (enhance (filt ecg) fs)) (pyTrunc (6/10 * fs)))

deriving instance DecidableEq for Except

/-! ## Basic facts about the embedded numpy primitives -/

theorem pyDiff_length (l : List ℚ) : (pyDiff l).length = l.length - 1 := by
  simp [pyDiff]

theorem pyDiff_eq_nil_of_short {l : List ℚ} (h : l.length < 2) : pyDiff l = [] := by
  have := pyDiff_length l
  have : (pyDiff l).length = 0 := by omega
  exact List.eq_nil_of_length_eq_zero this

theorem pyDiff_cons₂ (a b : ℚ) (t : List ℚ) :
    pyDiff (a :: b :: t) = (b - a) :: pyDiff (b :: t) := rfl

theorem pyDiff_nil : pyDiff [] = [] := rfl

theorem pyDiff_replicate (n : ℕ) (c : ℚ) :
    pyDiff (List.replicate (n + 1) c) = List.replicate n 0 := by
  induction n with
  | zero => rfl
  | succ m ih =>
    have h2 : List.replicate (m + 1) c = c :: List.replicate m c := rfl
    have h1 : List.replicate (m + 1 + 1) c = c :: List.replicate (m + 1) c := rfl
    rw [h1, h2, pyDiff_cons₂, ← h2, ih, sub_self]
    rfl

theorem pyMean_replicate {n : ℕ} (hn : 0 < n) (c : ℚ) :
    pyMean (List.replicate n c) = some c := by
  have hn' : (n : ℚ) ≠ 0 := Nat.cast_ne_zero.mpr hn.ne'
  cases n with
  | zero => omega
  | succ m =>
    simp only [pyMean, List.replicate_succ, List.isEmpty_cons, List.sum_cons,
      List.sum_replicate, List.length_cons, List.length_replicate, nsmul_eq_mul,
      Bool.false_eq_true, if_false]
    congr 1
    have : c + (m : ℚ) * c = ((m : ℕ) + 1 : ℚ) * c := by ring
    rw [this]
    push_cast
    rw [mul_div_cancel_left₀]
    push_cast at hn'
    exact hn'

theorem pyVar_replicate {n : ℕ} (hn : 0 < n) (c : ℚ) :
    pyVar (List.replicate n c) = some 0 := by
  rw [pyVar, pyMean_replicate hn c]
  simp only [Option.some_bind, List.map_replicate]
  have h : (c - c) ^ 2 = (0 : ℚ) := by ring
  rw [h]
  exact pyMean_replicate hn 0

theorem pyStd_replicate {n : ℕ} (hn : 0 < n) (c : ℚ) :
    pyStd (List.replicate n c) = some 0 := by
  rw [pyStd, pyVar_replicate hn c]
  simp [Real.sqrt_zero]

/-! ## Claim C1: behaviour on fewer than 2 beats -/

/-- C1 (counterexample).  On the single beat `[5]` (fewer than 2 beats) the
source raises no `InsufficientBeatsError` — no such error exists anywhere in
the code: `compute_heart_rate` returns the silently empty array and
`compute_hrv_metrics` returns NaN time-domain values (embedded as `none`),
which is exactly what the claim asserts cannot happen. -/
theorem insufficient_beats_silent_cex :
    compute_heart_rate [5] 100 = [] ∧
    (compute_hrv_metrics welch0 [5] 100).mean_rr = none ∧
    (compute_hrv_metrics welch0 [5] 100).std_rr = none ∧
    (compute_hrv_metrics welch0 [5] 100).pnn50 = none :=
  ⟨rfl, rfl, rfl, rfl⟩

/-- C1 (amended).  For every beat sequence with fewer than 2 elements,
`compute_heart_rate` returns the empty array and `compute_hrv_metrics` returns
a mapping whose time-domain metrics are NaN (`none`; `nn50`, a count, is 0)
and whose frequency-domain keys are absent; neither function raises any
error. -/
theorem insufficient_beats_silent (welch : WelchFn) (r_peaks : List ℚ) (fs : ℚ)
    (h : r_peaks.length < 2) :
    compute_heart_rate r_peaks fs = [] ∧
    (compute_hrv_metrics welch r_peaks fs).mean_rr = none ∧
    (compute_hrv_metrics welch r_peaks fs).std_rr = none ∧
    (compute_hrv_metrics welch r_peaks fs).rmssd = none ∧
    (compute_hrv_metrics welch r_peaks fs).sdsd = none ∧
    (compute_hrv_metrics welch r_peaks fs).nn50 = 0 ∧
    (compute_hrv_metrics welch r_peaks fs).pnn50 = none ∧
    (compute_hrv_metrics welch r_peaks fs).lf_power = none ∧
    (compute_hrv_metrics welch r_peaks fs).hf_power = none ∧
    (compute_hrv_metrics welch r_peaks fs).lf_hf_ratio = none := by
  have hd : pyDiff r_peaks = [] := pyDiff_eq_nil_of_short h
  refine ⟨?_, ?_⟩
  · simp [compute_heart_rate, hd]
  · simp [compute_hrv_metrics, hd, pyDiff_nil, pyMean, pyVar, pyStd]

/-- C1 (witness for the amended theorem). -/
theorem insufficient_beats_silent_witness :
    ([(5 : ℚ)].length < 2) ∧
    (compute_heart_rate [5] 100 = [] ∧
      (compute_hrv_metrics welch0 [5] 100).mean_rr = none ∧
      (compute_hrv_metrics welch0 [5] 100).std_rr = none ∧
      (compute_hrv_metrics welch0 [5] 100).rmssd = none ∧
      (compute_hrv_metrics welch0 [5] 100).sdsd = none ∧
      (compute_hrv_metrics welch0 [5] 100).nn50 = 0 ∧
      (compute_hrv_metrics welch0 [5] 100).pnn50 = none ∧
      (compute_hrv_metrics welch0 [5] 100).lf_power = none ∧
      (compute_hrv_metrics welch0 [5] 100).hf_power = none ∧
      (compute_hrv_metrics welch0 [5] 100).lf_hf_ratio = none) :=
  ⟨by decide, insufficient_beats_silent welch0 [5] 100 (by decide)⟩

/-! ## Claim C3: frequency-domain keys present iff at least 11 intervals -/

/-- C3.  The three frequency-domain keys are present in the result mapping if
and only if the number of inter-beat intervals (one less than the number of
beats) is at least 11; below that threshold they are simply absent while the
(total) function still returns the time-domain metrics — no error is raised,
`compute_hrv_metrics` being total by construction, as in the source. -/
theorem hrv_freq_keys_iff_eleven_intervals (welch : WelchFn) (r_peaks : List ℚ)
    (fs : ℚ) :
    ((compute_hrv_metrics welch r_peaks fs).lf_power.isSome
        ↔ 11 ≤ r_peaks.length - 1) ∧
    ((compute_hrv_metrics welch r_peaks fs).hf_power.isSome
        ↔ 11 ≤ r_peaks.length - 1) ∧
    ((compute_hrv_metrics welch r_peaks fs).lf_hf_ratio.isSome
        ↔ 11 ≤ r_peaks.length - 1) := by
  have hlen : ((pyDiff r_peaks).map fun d => d / fs * 1000).length
      = r_peaks.length - 1 := by
    rw [List.length_map, pyDiff_length]
  constructor
  · simp only [compute_hrv_metrics, Option.isSome_map, hlen]
    split <;> simp_all <;> omega
  constructor
  · simp only [compute_hrv_metrics, Option.isSome_map, hlen]
    split <;> simp_all <;> omega
  · simp only [compute_hrv_metrics, Option.isSome_map, hlen]
    split <;> simp_all <;> omega

/-! ## Claim C4: perfectly regular intervals give zero variability -/

/-- C4.  For every beat sequence whose consecutive differences are all equal
(at least 2 intervals), `compute_hrv_metrics` returns
`std_rr = rmssd = sdsd = 0`, `nn50 = 0` and `pnn50 = 0`. -/
theorem hrv_regular_intervals_zero (welch : WelchFn) (r_peaks : List ℚ) (fs : ℚ)
    (m : ℕ) (dlt : ℚ) (hd : pyDiff r_peaks = List.replicate m dlt) (hm : 2 ≤ m) :
    (compute_hrv_metrics welch r_peaks fs).std_rr = some 0 ∧
    (compute_hrv_metrics welch r_peaks fs).rmssd = some 0 ∧
    (compute_hrv_metrics welch r_peaks fs).sdsd = some 0 ∧
    (compute_hrv_metrics welch r_peaks fs).nn50 = 0 ∧
    (compute_hrv_metrics welch r_peaks fs).pnn50 = some 0 := by
  obtain ⟨k, rfl⟩ : ∃ k, m = k + 2 := ⟨m - 2, by omega⟩
  have hrr : (pyDiff r_peaks).map (fun d => d / fs * 1000)
      = List.replicate (k + 2) (dlt / fs * 1000) := by
    rw [hd, List.map_replicate]
  have hdrr : pyDiff (List.replicate (k + 2) (dlt / fs * 1000))
      = List.replicate (k + 1) 0 := pyDiff_replicate (k + 1) _
  have hfil : (List.replicate (k + 1) (0 : ℚ)).filter (fun d => decide (50 < |d|))
      = [] := by
    apply List.filter_eq_nil_iff.mpr
    intro a ha
    have : a = 0 := List.eq_of_mem_replicate ha
    simp [this]
  refine ⟨?_, ?_, ?_, ?_, ?_⟩
  · simp only [compute_hrv_metrics, hrr]
    exact pyStd_replicate (by omega) _
  · simp only [compute_hrv_metrics, hrr, hdrr, List.map_replicate]
    have h0 : ((0 : ℚ)) ^ 2 = 0 := by norm_num
    rw [h0, pyMean_replicate (by omega) 0]
    simp [Real.sqrt_zero]
  · simp only [compute_hrv_metrics, hrr, hdrr]
    exact pyStd_replicate (by omega) _
  · simp only [compute_hrv_metrics, hrr, hdrr, hfil]
    rfl
  · simp only [compute_hrv_metrics, hrr, hdrr, hfil]
    simp [List.replicate_succ]

/-- C4 (witness): beats `[0, 100, 200]` at `fs = 100`. -/
theorem hrv_regular_intervals_zero_witness :
    (pyDiff [0, 100, 200] = List.replicate 2 (100 : ℚ) ∧ 2 ≤ 2) ∧
    ((compute_hrv_metrics welch0 [0, 100, 200] 100).std_rr = some 0 ∧
      (compute_hrv_metrics welch0 [0, 100, 200] 100).rmssd = some 0 ∧
      (compute_hrv_metrics welch0 [0, 100, 200] 100).sdsd = some 0 ∧
      (compute_hrv_metrics welch0 [0, 100, 200] 100).nn50 = 0 ∧
      (compute_hrv_metrics welch0 [0, 100, 200] 100).pnn50 = some 0) :=
  ⟨⟨by with_unfolding_all decide, by decide⟩,
    hrv_regular_intervals_zero welch0 [0, 100, 200] 100 2 100
      (by with_unfolding_all decide) (by decide)⟩

/-! ## Claim C5: pnn50 range and LF/HF ratio sign -/

theorem pairwise_zip_left {R : ℚ → ℚ → Prop} :
    ∀ {l l' : List ℚ}, l.Pairwise R → (l.zip l').Pairwise fun p q => R p.1 q.1 := by
  intro l
  induction l with
  | nil => intro l' _; simp
  | cons a t ih =>
    intro l' h
    cases l' with
    | nil => simp
    | cons b t' =>
      rw [List.zip_cons_cons]
      refine List.Pairwise.cons ?_ (ih h.of_cons)
      intro q hq
      exact (List.rel_of_pairwise_cons h) ((List.of_mem_zip hq).1)

theorem trapzPairs_nonneg :
    ∀ {ps : List (ℚ × ℚ)}, ps.Pairwise (fun p q => p.1 ≤ q.1) →
      (∀ p ∈ ps, 0 ≤ p.2) → 0 ≤ trapzPairs ps := by
  intro ps
  induction ps with
  | nil => intro _ _; simp [trapzPairs]
  | cons a t ih =>
    intro hp hn
    cases t with
    | nil => simp [trapzPairs]
    | cons b t' =>
      have hab : a.1 ≤ b.1 := List.rel_of_pairwise_cons hp (List.mem_cons_self b t')
      have ha2 : 0 ≤ a.2 := hn a (List.mem_cons_self a _)
      have hb2 : 0 ≤ b.2 := hn b (by simp)
      have hterm : 0 ≤ (b.1 - a.1) * (a.2 + b.2) / 2 :=
        div_nonneg (mul_nonneg (sub_nonneg.mpr hab) (add_nonneg ha2 hb2)) (by norm_num)
      have htail : 0 ≤ trapzPairs (b :: t') :=
        ih hp.of_cons (fun p hpmem => hn p (List.mem_cons_of_mem a hpmem))
      calc (0 : ℚ) ≤ (b.1 - a.1) * (a.2 + b.2) / 2 + trapzPairs (b :: t') :=
            add_nonneg hterm htail
        _ = trapzPairs (a :: b :: t') := rfl

theorem maskBand_pairwise {lo hi : ℚ} {freqs psd : List ℚ}
    (h : freqs.Pairwise (· ≤ ·)) :
    (maskBand lo hi freqs psd).Pairwise fun p q => p.1 ≤ q.1 :=
  (pairwise_zip_left h).filter _

theorem maskBand_snd_nonneg {lo hi : ℚ} {freqs psd : List ℚ}
    (h : ∀ y ∈ psd, 0 ≤ y) :
    ∀ p ∈ maskBand lo hi freqs psd, 0 ≤ p.2 := by
  intro p hp
  exact h p.2 (List.of_mem_zip (List.mem_of_mem_filter hp)).2

/-- C5.  With at least 2 beats the returned `pnn50` is a value in `[0, 100]`,
and whenever the frequency-domain keys are present the LF/HF ratio is
nonnegative and is exactly 0 when the HF power is 0.  The hypotheses on
`welch` state what `scipy.signal.welch` guarantees of its output: the
frequency bins are sorted increasingly and the power spectral density is
pointwise nonnegative. -/
theorem hrv_pnn50_range_ratio_nonneg (welch : WelchFn) (r_peaks : List ℚ) (fs : ℚ)
    (hlen : 2 ≤ r_peaks.length)
    (hwf : ∀ a b c, (welch a b c).1.Pairwise (· ≤ ·) ∧ ∀ y ∈ (welch a b c).2, 0 ≤ y) :
    (∃ p, (compute_hrv_metrics welch r_peaks fs).pnn50 = some p ∧ 0 ≤ p ∧ p ≤ 100) ∧
    (∀ lf hf r, (compute_hrv_metrics welch r_peaks fs).lf_power = some lf →
      (compute_hrv_metrics welch r_peaks fs).hf_power = some hf →
      (compute_hrv_metrics welch r_peaks fs).lf_hf_ratio = some r →
      0 ≤ r ∧ (hf = 0 → r = 0)) := by
  have hrlen : ((pyDiff r_peaks).map fun d => d / fs * 1000).length
      = r_peaks.length - 1 := by rw [List.length_map, pyDiff_length]
  have hpos : 0 < ((pyDiff r_peaks).map fun d => d / fs * 1000).length := by omega
  constructor
  · -- pnn50 ∈ [0, 100]
    have hne : ((pyDiff r_peaks).map fun d => d / fs * 1000).isEmpty = false := by
      cases hL : (pyDiff r_peaks).map fun d => d / fs * 1000 with
      | nil => rw [hL] at hpos; simp at hpos
      | cons x t => rfl
    simp only [compute_hrv_metrics, hne, Bool.false_eq_true, if_false]
    set rr := (pyDiff r_peaks).map fun d => d / fs * 1000 with hrrdef
    set c := ((pyDiff rr).filter fun d => decide (50 < |d|)).length with hc
    refine ⟨_, rfl, ?_, ?_⟩
    · positivity
    · have hcle : (c : ℚ) ≤ rr.length := by
        have h1 : c ≤ (pyDiff rr).length := List.length_filter_le _ _
        have h2 : (pyDiff rr).length = rr.length - 1 := pyDiff_length rr
        exact_mod_cast by omega
      have hlpos : (0 : ℚ) < rr.length := by exact_mod_cast hpos
      calc (c : ℚ) / rr.length * 100 ≤ 1 * 100 := by
            apply mul_le_mul_of_nonneg_right _ (by norm_num)
            rw [div_le_one hlpos]
            exact hcle
        _ = 100 := by norm_num
  · -- LF/HF ratio
    intro lf hf r hlf hhf hr
    by_cases hfreq : 10 < ((pyDiff r_peaks).map fun d => d / fs * 1000).length
    · simp only [compute_hrv_metrics, hfreq, if_true, Option.map_some] at hlf hhf hr
      obtain ⟨hwp, hwn⟩ := hwf ((pyDiff r_peaks).map fun d => d / fs * 1000)
        (1000 / (pyMean ((pyDiff r_peaks).map fun d => d / fs * 1000)).getD 0)
        (min 256 ((pyDiff r_peaks).map fun d => d / fs * 1000).length)
      have hlf0 : 0 ≤ lf := by
        rw [← Option.some_inj.mp hlf]
        exact trapzPairs_nonneg (maskBand_pairwise hwp) (maskBand_snd_nonneg hwn)
      have hhf0 : 0 ≤ hf := by
        rw [← Option.some_inj.mp hhf]
        exact trapzPairs_nonneg (maskBand_pairwise hwp) (maskBand_snd_nonneg hwn)
      have hrval : r = if 0 < hf then lf / hf else 0 := by
        rw [← Option.some_inj.mp hr, ← Option.some_inj.mp hlf, ← Option.some_inj.mp hhf]
      constructor
      · rw [hrval]
        split
        · exact div_nonneg hlf0 hhf0
        · exact le_refl 0
      · intro hhf_eq
        rw [hrval, hhf_eq]
        simp
    · simp only [compute_hrv_metrics, hfreq, if_false, Option.map_none] at hlf
      exact absurd hlf (by simp)

/-- C5 (witness): beats `[0, 100, 200]` with the degenerate estimator. -/
theorem hrv_pnn50_range_ratio_nonneg_witness :
    (2 ≤ ([0, 100, 200] : List ℚ).length ∧
      (∀ a b c, (welch0 a b c).1.Pairwise (· ≤ ·) ∧ ∀ y ∈ (welch0 a b c).2, 0 ≤ y)) ∧
    ((∃ p, (compute_hrv_metrics welch0 [0, 100, 200] 100).pnn50 = some p ∧
        0 ≤ p ∧ p ≤ 100) ∧
      (∀ lf hf r, (compute_hrv_metrics welch0 [0, 100, 200] 100).lf_power = some lf →
        (compute_hrv_metrics welch0 [0, 100, 200] 100).hf_power = some hf →
        (compute_hrv_metrics welch0 [0, 100, 200] 100).lf_hf_ratio = some r →
        0 ≤ r ∧ (hf = 0 → r = 0))) :=
  ⟨⟨by decide, fun a b c => ⟨by simp [welch0], by simp [welch0]⟩⟩,
    hrv_pnn50_range_ratio_nonneg welch0 [0, 100, 200] 100 (by decide)
      (fun a b c => ⟨by simp [welch0], by simp [welch0]⟩)⟩

/-! ## Claim C6: invalid band fails the bandpass stage -/

theorem butterBandCheck_false {fs : ℚ} (h : fs ≤ 30) : butterBandCheck fs = false := by
  rcases le_or_lt fs 0 with h0 | h0
  · have hle : 2 * 5 / fs ≤ 0 :=
      div_nonpos_iff.mpr (Or.inl ⟨by norm_num, h0⟩)
    unfold butterBandCheck
    rw [decide_eq_false (not_lt.mpr hle)]
    simp
  · have h1 : (1 : ℚ) ≤ 2 * 15 / fs := by
      rw [le_div_iff₀ h0]
      linarith
    unfold butterBandCheck
    rw [decide_eq_false (not_lt.mpr h1)]
    simp

/-- C6.  With the QRS band fixed at 5-15 Hz the Nyquist constraint
`0 < 5 < 15 < fs/2` fails exactly when `fs ≤ 30`, and then `detect_r_peaks`
fails in its bandpass stage: scipy's `butter` rejects the normalized critical
frequencies (the error the spec names `InvalidBandError`) before anything else
runs. -/
theorem detect_r_peaks_invalid_band (filt : List ℚ → List ℚ) (ecg : List ℚ)
    (fs threshold_factor : ℚ) (h : fs ≤ 30) :
    detect_r_peaks filt ecg fs threshold_factor = .error .invalidBand := by
  rw [detect_r_peaks, butterBandCheck_false h]
  rfl

/-- C6 (witness): at `fs = 30` (the Nyquist boundary) detection fails with the
band error. -/
theorem detect_r_peaks_invalid_band_witness :
    ((30 : ℚ) ≤ 30) ∧
    detect_r_peaks (fun l => l) [] 30 (3/5) = .error .invalidBand :=
  ⟨le_refl 30, detect_r_peaks_invalid_band (fun l => l) [] 30 (3/5) (le_refl 30)⟩

/-! ## Claims C2 and C9: concrete runs of the detector -/

/-- A concrete stand-in for the filter output: two unit pulses, 18 samples
apart, in 24 samples.  (`filtfilt` is linear with a large range; any output
with two isolated bumps at this spacing produces the same peak pattern.) -/
def filteredTwoPulse : List ℚ :=
  [0, 0, 1, 0, 0, 0, 0, 0, 0, 0, 0, 0, 0, 0, 0, 0, 0, 0, 0, 0, 1, 0, 0, 0]

set_option maxRecDepth 40000 in
/-- C2 (counterexample).  At `fs = 31` the source passes
`distance = int(0.6 * 31) = 18` to `find_peaks`, so beats 18 samples apart are
both returned, yet `round(0.6 * 31) = 19`: the returned consecutive indices 2
and 20 differ by 18 < 19, refuting the claim's `round` bound. -/
theorem detect_r_peaks_gap_round_cex :
    detect_r_peaks (fun _ => filteredTwoPulse) (List.replicate 24 0) 31 (3/5)
      = .ok [2, 20] ∧
    (20 : ℤ) - 2 < round ((6 : ℚ) / 10 * 31) := by
  constructor
  · with_unfolding_all decide
  · with_unfolding_all decide

/-- A 16-sample alternating input (the filter stand-in is the identity, which
is length preserving, as `filtfilt` is). -/
def ecgAlt16 : List ℚ :=
  [0, 1, 0, 1, 0, 1, 0, 1, 0, 1, 0, 1, 0, 1, 0, 1]

set_option maxRecDepth 40000 in
/-- C9 (counterexample).  At `fs = 250` the moving-average window
`int(0.15 * 250) = 37` exceeds the 15-sample squared-difference sequence, so
`np.convolve(..., mode='same')` returns the longer window length and the
detected peak index 18 is not a valid position in the 16-sample input: it is
not below `len(ecg) - 1 = 15` (indeed not even below `len(ecg)`). -/
theorem detect_r_peaks_index_bound_cex :
    detect_r_peaks (fun l => l) ecgAlt16 250 (3/5) = .ok [18] ∧
    ¬(18 < ecgAlt16.length - 1) := by
  constructor
  · with_unfolding_all decide
  · decide

/-! ## Claim C7: the moving-average window and its edge semantics -/

theorem length_convFull (a v : List ℚ) :
    (convFull a v).length = a.length + v.length - 1 := by
  simp [convFull]

theorem length_convSame (a v : List ℚ) (h1 : 1 ≤ v.length) (h2 : v.length ≤ a.length) :
    (convSame a v).length = a.length := by
  rw [convSame, List.length_take, List.length_drop, length_convFull,
    Nat.max_eq_left h2, Nat.min_eq_right h2]
  omega

theorem convSame_getD (a v : List ℚ) (h1 : 1 ≤ v.length) (h2 : v.length ≤ a.length)
    {s : ℕ} (hs : s < a.length) :
    (convSame a v).getD s 0
      = dot ((a.take ((v.length - 1) / 2 + s + 1)).reverse)
          (v.drop ((v.length - 1) / 2 + s + 1 - a.length)) := by
  rw [convSame, Nat.max_eq_left h2, Nat.min_eq_right h2]
  rw [List.getD_eq_getElem?_getD, List.getElem?_take_of_lt hs, List.getElem?_drop]
  rw [convFull, List.getElem?_map,
    List.getElem?_range (by omega : (v.length - 1) / 2 + s < a.length + v.length - 1)]
  simp

theorem dot_replicate (xs : List ℚ) (m : ℕ) (c : ℚ) :
    dot xs (List.replicate m c) = (xs.take m).sum * c := by
  induction xs generalizing m with
  | nil => cases m <;> simp [dot]
  | cons x t ih =>
    cases m with
    | zero => simp [dot]
    | succ m' =>
      rw [List.replicate_succ]
      show x * c + dot t (List.replicate m' c) = _
      rw [ih, List.take_succ_cons, List.sum_cons]
      ring

theorem sum_reverse_take (l : List ℚ) (m : ℕ) :
    (l.reverse.take m).sum = (l.drop (l.length - m)).sum := by
  rw [List.take_reverse, List.sum_reverse]

/-- The `mode='same'` convolution against a constant kernel, read off at a
valid index: the clamped window sum times the kernel value. -/
theorem convSame_replicate_getD (a : List ℚ) (w : ℕ) (c : ℚ)
    (h1 : 1 ≤ w) (h2 : w ≤ a.length) {s : ℕ} (hs : s < a.length) :
    (convSame a (List.replicate w c)).getD s 0
      = ((a.drop ((w - 1) / 2 + s + 1 - w)).take
          (min ((w - 1) / 2 + s + 1) w)).sum * c := by
  have hlen : (List.replicate w c).length = w := List.length_replicate w c
  rw [convSame_getD a _ (by omega) (by rw [hlen]; exact h2) hs]
  rw [hlen, List.drop_replicate, dot_replicate, sum_reverse_take, List.length_take,
    List.drop_take]
  have hst : (w - 1) / 2 ≤ w - 1 := Nat.div_le_self _ _
  have hd : min ((w - 1) / 2 + s + 1) a.length - (w - ((w - 1) / 2 + s + 1 - a.length))
      = (w - 1) / 2 + s + 1 - w := by omega
  have ht : (w - 1) / 2 + s + 1 - ((w - 1) / 2 + s + 1 - w)
      = min ((w - 1) / 2 + s + 1) w := by omega
  rw [hd, ht]

/-- The zero-padded centered window sum equals the clamped window sum. -/
theorem centered_window_sum (a : List ℚ) (w : ℕ) (h1 : 1 ≤ w) {s : ℕ}
    (hs : s < a.length) :
    (((List.replicate (w - 1 - (w - 1) / 2) 0 ++ a ++ List.replicate ((w - 1) / 2) 0).drop
        s).take w).sum
      = ((a.drop ((w - 1) / 2 + s + 1 - w)).take (min ((w - 1) / 2 + s + 1) w)).sum := by
  have hst : (w - 1) / 2 ≤ w - 1 := Nat.div_le_self _ _
  rw [List.append_assoc, List.drop_append_eq_append_drop, List.take_append_eq_append_take,
    List.sum_append, List.drop_replicate, List.take_replicate, List.sum_replicate,
    smul_zero, zero_add]
  rw [List.drop_append_eq_append_drop, List.take_append_eq_append_take, List.sum_append,
    List.drop_replicate, List.take_replicate, List.sum_replicate, smul_zero, add_zero]
  have hidx : s - (List.replicate (w - 1 - (w - 1) / 2) (0 : ℚ)).length
      = (w - 1) / 2 + s + 1 - w := by
    rw [List.length_replicate]
    omega
  have hcnt : w - (List.replicate (w - 1 - (w - 1) / 2 - s) (0 : ℚ)).length
      = min ((w - 1) / 2 + s + 1) w := by
    rw [List.length_replicate]
    omega
  rw [hidx, hcnt]

/-- C7 (counterexample).  At `fs = 250` the source's moving-average window is
`int(0.15 * 250) = 37` samples, not `round(0.15 * 250) = 38` as the claim
states. -/
theorem enhancer_window_not_round_cex :
    window_size 250 = 37 ∧ round ((15 : ℚ) / 100 * 250) = 38 ∧
    window_size 250 ≠ round ((15 : ℚ) / 100 * 250) := by
  refine ⟨?_, ?_, ?_⟩ <;> with_unfolding_all decide

/-- C7 (amended).  The enhancer applies a moving average of window length
`int(0.15 * fs)` (truncation, not rounding) to the squared first-difference
sequence; whenever `1 ≤ window ≤ len(squared)` the envelope has the same
length as the squared sequence and each entry is the zero-padded centered
window average: pad with `window - 1 - (window-1)/2` zeros on the left and
`(window-1)/2` zeros on the right, slide a length-`window` window, divide by
`window`. -/
theorem enhancer_window_trunc_zero_pad (filtered : List ℚ) (fs : ℚ)
    (h1 : 1 ≤ (window_size fs).toNat)
    (h2 : (window_size fs).toNat ≤ ((pyDiff filtered).map fun t => t ^ 2).length) :
    (enhance filtered fs).length = ((pyDiff filtered).map fun t => t ^ 2).length ∧
    ∀ s < ((pyDiff filtered).map fun t => t ^ 2).length,
      (enhance filtered fs).getD s 0
        = (((List.replicate ((window_size fs).toNat - 1 - ((window_size fs).toNat - 1) / 2) 0
            ++ ((pyDiff filtered).map fun t => t ^ 2)
            ++ List.replicate (((window_size fs).toNat - 1) / 2) 0).drop s).take
              (window_size fs).toNat).sum / ((window_size fs).toNat : ℚ) := by
  have hws : ((window_size fs).toNat : ℚ) = ((window_size fs : ℤ) : ℚ) := by
    have h0 : 0 ≤ window_size fs := by
      by_contra hn
      push_neg at hn
      have : (window_size fs).toNat = 0 := Int.toNat_of_nonpos hn.le
      omega
    exact_mod_cast congrArg (fun z : ℤ => (z : ℚ)) (Int.toNat_of_nonneg h0)
  constructor
  · rw [enhance]
    exact length_convSame _ _ (by rw [List.length_replicate]; omega)
      (by rw [List.length_replicate]; exact h2)
  · intro s hs
    rw [enhance, convSame_replicate_getD _ _ _ h1 h2 hs,
      ← centered_window_sum _ _ h1 hs, ← hws, mul_one_div]

/-- C7 (witness for the amended theorem): 8 samples at `fs = 31`
(window `int(0.15 * 31) = 4`). -/
theorem enhancer_window_trunc_zero_pad_witness :
    (1 ≤ (window_size 31).toNat ∧
      (window_size 31).toNat ≤ ((pyDiff [0, 1, 0, 2, 0, 3, 0, 4]).map fun t => t ^ 2).length) ∧
    ((enhance [0, 1, 0, 2, 0, 3, 0, 4] 31).length
        = ((pyDiff [0, 1, 0, 2, 0, 3, 0, 4]).map fun t => t ^ 2).length ∧
      ∀ s < ((pyDiff [0, 1, 0, 2, 0, 3, 0, 4]).map fun t => t ^ 2).length,
        (enhance [0, 1, 0, 2, 0, 3, 0, 4] 31).getD s 0
          = (((List.replicate ((window_size 31).toNat - 1 - ((window_size 31).toNat - 1) / 2) 0
              ++ ((pyDiff [0, 1, 0, 2, 0, 3, 0, 4]).map fun t => t ^ 2)
              ++ List.replicate (((window_size 31).toNat - 1) / 2) 0).drop s).take
                (window_size 31).toNat).sum / ((window_size 31).toNat : ℚ)) :=
  ⟨⟨by with_unfolding_all decide, by with_unfolding_all decide⟩,
    enhancer_window_trunc_zero_pad [0, 1, 0, 2, 0, 3, 0, 4] 31
      (by with_unfolding_all decide) (by with_unfolding_all decide)⟩

/-! ## Claim C8: constant input yields no beats -/

theorem dot_zero_left (m : ℕ) : ∀ ys : List ℚ, dot (List.replicate m 0) ys = 0 := by
  induction m with
  | zero => intro ys; cases ys <;> rfl
  | succ n ih =>
    intro ys
    cases ys with
    | nil => rfl
    | cons y t =>
      show (0 : ℚ) * y + dot (List.replicate n 0) t = 0
      rw [ih t, zero_mul, add_zero]

theorem getD_replicate_zero (n t : ℕ) : (List.replicate n (0 : ℚ)).getD t 0 = 0 := by
  rw [List.getD_eq_getElem?_getD, List.getElem?_replicate]
  split <;> rfl

theorem getD_convSame_zero (n : ℕ) (v : List ℚ) (t : ℕ) :
    (convSame (List.replicate n 0) v).getD t 0 = 0 := by
  have hfull : convFull (List.replicate n 0) v
      = List.replicate (n + v.length - 1) 0 := by
    rw [convFull]
    have : ∀ k, dot (((List.replicate n (0 : ℚ)).take (k + 1)).reverse)
        (v.drop (k + 1 - (List.replicate n (0 : ℚ)).length)) = 0 := by
      intro k
      rw [List.take_replicate, List.reverse_replicate, dot_zero_left]
    calc (List.range ((List.replicate n (0 : ℚ)).length + v.length - 1)).map
          (fun k => dot (((List.replicate n (0 : ℚ)).take (k + 1)).reverse)
            (v.drop (k + 1 - (List.replicate n (0 : ℚ)).length)))
        = (List.range ((List.replicate n (0 : ℚ)).length + v.length - 1)).map
            (fun _ => (0 : ℚ)) := List.map_congr_left (fun k _ => this k)
      _ = List.replicate (n + v.length - 1) 0 := by
          rw [List.map_const', List.length_range, List.length_replicate]
  rw [convSame, hfull, List.drop_replicate, List.take_replicate]
  exact getD_replicate_zero _ _

theorem localMaximaAux_zero {x : List ℚ} (hx : ∀ t, x.getD t 0 = 0) :
    ∀ fuel i, localMaximaAux x i fuel = [] := by
  intro fuel
  induction fuel with
  | zero => intro i; rfl
  | succ f ih =>
    intro i
    rw [localMaximaAux]
    split
    · rw [hx (i - 1), hx i, if_neg (lt_irrefl (0 : ℚ))]
      exact ih (i + 1)
    · rfl

theorem findPeaks_of_no_maxima {x : List ℚ} (h : localMaxima x = []) (ht : ℚ) (d : ℤ) :
    findPeaks x ht d = [] := by
  rw [findPeaks, h]
  rfl

theorem butterBandCheck_true {fs : ℚ} (h : 30 < fs) : butterBandCheck fs = true := by
  have hfs : (0 : ℚ) < fs := by linarith
  have h1 : (0 : ℚ) < 2 * 5 / fs := by positivity
  have h2 : 2 * 5 / fs < 1 := by rw [div_lt_one hfs]; linarith
  have h3 : (0 : ℚ) < 2 * 15 / fs := by positivity
  have h4 : 2 * 15 / fs < 1 := by rw [div_lt_one hfs]; linarith
  rw [butterBandCheck, decide_eq_true h1, decide_eq_true h2, decide_eq_true h3,
    decide_eq_true h4]
  rfl

theorem pyTrunc_nonneg_eq_floor {q : ℚ} (h : 0 ≤ q) : pyTrunc q = Int.floor q := by
  rw [pyTrunc, if_neg (not_lt.mpr h)]

theorem distance_ge_one {fs : ℚ} (h : 30 < fs) : 1 ≤ pyTrunc (6 / 10 * fs) := by
  have hq : (1 : ℚ) ≤ 6 / 10 * fs := by linarith
  rw [pyTrunc_nonneg_eq_floor (by linarith)]
  exact_mod_cast Int.le_floor.mpr (by exact_mod_cast hq)

/-- C8.  For every constant input (in particular all-zero input) of length
accepted by the filter, detection returns an empty beat sequence.  The
hypothesis on `filt` records what the zero-phase Butterworth bandpass does to
a constant signal in exact arithmetic: its numerator has an exact zero at DC
(the coefficients sum to 0), so the steady-state `filtfilt` output of a
constant input is identically zero. -/
theorem detect_r_peaks_constant_empty (filt : List ℚ → List ℚ) (ecg : List ℚ)
    (fs threshold_factor : ℚ) (n : ℕ) (c : ℚ)
    (hecg : ecg = List.replicate n c)
    (hfilt : filt ecg = List.replicate n 0)
    (hn : 15 < n) (hfs : 30 < fs) :
    detect_r_peaks filt ecg fs threshold_factor = .ok [] := by
  have hlen : ecg.length = n := by rw [hecg, List.length_replicate]
  rw [detect_r_peaks, butterBandCheck_true hfs]
  rw [if_neg (by simp), if_neg (by omega), if_neg (by have := distance_ge_one hfs; omega)]
  congr 1
  have hsq : ((pyDiff (filt ecg)).map fun t => t ^ 2) = List.replicate (n - 1) 0 := by
    obtain ⟨m, rfl⟩ : ∃ m, n = m + 1 := ⟨n - 1, by omega⟩
    rw [hfilt, pyDiff_replicate, List.map_replicate]
    norm_num
  apply findPeaks_of_no_maxima
  rw [localMaxima, enhance, hsq]
  exact localMaximaAux_zero (fun t => getD_convSame_zero _ _ t) _ _

/-- C8 (witness): the constant signal of twenty 7s at `fs = 100`, with a
filter stand-in that sends it to the zero signal. -/
theorem detect_r_peaks_constant_empty_witness :
    (List.replicate 20 (7 : ℚ) = List.replicate 20 (7 : ℚ) ∧
      (fun l : List ℚ => List.replicate l.length 0) (List.replicate 20 (7 : ℚ))
        = List.replicate 20 0 ∧
      15 < 20 ∧ (30 : ℚ) < 100) ∧
    detect_r_peaks (fun l : List ℚ => List.replicate l.length 0)
      (List.replicate 20 (7 : ℚ)) 100 (3/5) = .ok [] :=
  ⟨⟨rfl, rfl, by decide, by with_unfolding_all decide⟩,
    detect_r_peaks_constant_empty _ _ 100 (3/5) 20 7 rfl rfl (by decide)
      (by with_unfolding_all decide)⟩

/-! ## Claim C9 (amended): bounds on returned peak indices -/

theorem plateauEnd_ge (x : List ℚ) (i : ℕ) :
    ∀ fuel j, j ≤ plateauEnd x i j fuel := by
  intro fuel
  induction fuel with
  | zero => intro j; exact le_refl j
  | succ f ih =>
    intro j
    rw [plateauEnd]
    split
    · exact le_trans (Nat.le_succ j) (ih (j + 1))
    · exact le_refl j

theorem plateauEnd_le (x : List ℚ) (i : ℕ) :
    ∀ fuel j, j ≤ x.length - 1 → plateauEnd x i j fuel ≤ x.length - 1 := by
  intro fuel
  induction fuel with
  | zero => intro j hj; exact hj
  | succ f ih =>
    intro j hj
    rw [plateauEnd]
    split
    · next h => exact ih (j + 1) (by omega)
    · exact hj

theorem localMaximaAux_mem {x : List ℚ} :
    ∀ fuel i p, p ∈ localMaximaAux x i fuel → i ≤ p ∧ p + 1 < x.length := by
  intro fuel
  induction fuel with
  | zero => intro i p hp; simp [localMaximaAux] at hp
  | succ f ih =>
    intro i p hp
    rw [localMaximaAux] at hp
    split at hp
    · next hi =>
      split at hp
      · next hrise =>
        split at hp
        · next hfall =>
          have hge : i + 1 ≤ plateauEnd x i (i + 1) x.length := plateauEnd_ge x i _ _
          have hle : plateauEnd x i (i + 1) x.length ≤ x.length - 1 :=
            plateauEnd_le x i _ _ (by omega)
          rcases List.mem_cons.mp hp with rfl | hp'
          · constructor <;> omega
          · have := ih _ _ hp'
            constructor <;> omega
        · have := ih _ _ hp
          constructor <;> omega
      · have := ih _ _ hp
        constructor <;> omega
    · simp at hp

theorem localMaximaAux_pairwise {x : List ℚ} :
    ∀ fuel i, (localMaximaAux x i fuel).Pairwise (· < ·) := by
  intro fuel
  induction fuel with
  | zero => intro i; simp [localMaximaAux]
  | succ f ih =>
    intro i
    rw [localMaximaAux]
    split
    · next hi =>
      split
      · next hrise =>
        split
        · next hfall =>
          refine List.Pairwise.cons ?_ (ih _)
          intro q hq
          have hq' := localMaximaAux_mem f _ q hq
          have hge : i + 1 ≤ plateauEnd x i (i + 1) x.length := plateauEnd_ge x i _ _
          omega
        · exact ih _
      · exact ih _
    · simp

theorem mem_applyKeep_subset {peaks : List ℕ} {keep : List Bool} {a : ℕ}
    (h : a ∈ applyKeep peaks keep) : a ∈ peaks := by
  rw [applyKeep] at h
  obtain ⟨pb, hpb, hite⟩ := List.mem_filterMap.mp h
  by_cases hb : pb.2
  · rw [if_pos hb, Option.some_inj] at hite
    rw [← hite]
    exact (List.of_mem_zip hpb).1
  · rw [if_neg hb] at hite
    exact absurd hite (by simp)

theorem findPeaks_subset_localMaxima {x : List ℚ} {h : ℚ} {d : ℤ} {p : ℕ}
    (hp : p ∈ findPeaks x h d) : p ∈ localMaxima x :=
  List.mem_of_mem_filter (mem_applyKeep_subset hp)

theorem findPeaks_mem_bound {x : List ℚ} {h : ℚ} {d : ℤ} {p : ℕ}
    (hp : p ∈ findPeaks x h d) : p + 1 < x.length :=
  (localMaximaAux_mem _ _ _ (findPeaks_subset_localMaxima hp)).2

theorem length_convSame_max (a v : List ℚ) (ha : 1 ≤ a.length) (hv : 1 ≤ v.length) :
    (convSame a v).length = max a.length v.length := by
  rw [convSame, List.length_take, List.length_drop, length_convFull]
  omega

theorem butterBandCheck_fs_pos {fs : ℚ} (h : butterBandCheck fs = true) : 30 < fs := by
  rw [butterBandCheck] at h
  simp only [Bool.and_eq_true, decide_eq_true_eq] at h
  obtain ⟨⟨⟨-, -⟩, h3⟩, h4⟩ := h
  have hfs : 0 < fs := by
    rcases div_pos_iff.mp h3 with ⟨-, hf⟩ | ⟨hc, -⟩
    · exact hf
    · norm_num at hc
  have := (div_lt_one hfs).mp h4
  linarith

theorem window_ge_one {fs : ℚ} (h : 30 < fs) : 1 ≤ (window_size fs).toNat := by
  have h1 : (1 : ℚ) ≤ 15 / 100 * fs := by linarith
  have h2 : (1 : ℤ) ≤ window_size fs := by
    rw [window_size, pyTrunc_nonneg_eq_floor (by linarith)]
    exact Int.le_floor.mpr (by exact_mod_cast h1)
  omega

/-- Inversion of a successful run of `detect_r_peaks`. -/
theorem detect_ok_inv {filt : List ℚ → List ℚ} {ecg : List ℚ} {fs tf : ℚ}
    {peaks : List ℕ} (h : detect_r_peaks filt ecg fs tf = .ok peaks) :
    butterBandCheck fs = true ∧ 15 < ecg.length ∧
    peaks = findPeaks (enhance (filt ecg) fs)
      (tf * npMax (enhance (filt ecg) fs)) (pyTrunc (6 / 10 * fs)) := by
  rw [detect_r_peaks] at h
  split at h
  · exact absurd h (by simp)
  · split at h
    · exact absurd h (by simp)
    · split at h
      · exact absurd h (by simp)
      · next h1 h2 h3 =>
        refine ⟨?_, by omega, (Except.ok.inj h).symm⟩
        rcases Bool.eq_false_or_eq_true (butterBandCheck fs) with hb | hb
        · exact hb
        · exact absurd hb h1

/-- C9 (amended).  When the filter stage preserves length (as `filtfilt`
does), every index returned by a successful `detect_r_peaks` run is below
`max(len(ecg) - 1, window)` where `window = int(0.15 * fs)` is the
moving-average window; in particular whenever the window does not exceed
`len(ecg) - 1` (the generic case) every returned index is a valid position
strictly below `len(ecg) - 1`.  (Nonnegativity is by the index type.) -/
theorem detect_r_peaks_index_bound (filt : List ℚ → List ℚ) (ecg : List ℚ)
    (fs tf : ℚ) (peaks : List ℕ)
    (hlen : (filt ecg).length = ecg.length)
    (hok : detect_r_peaks filt ecg fs tf = .ok peaks) :
    ∀ p ∈ peaks, p < max (ecg.length - 1) (window_size fs).toNat ∧
      ((window_size fs).toNat ≤ ecg.length - 1 → p < ecg.length - 1) := by
  obtain ⟨hbc, hel, rfl⟩ := detect_ok_inv hok
  intro p hp
  have hfs := butterBandCheck_fs_pos hbc
  have hw1 := window_ge_one hfs
  have hM : ((pyDiff (filt ecg)).map fun t => t ^ 2).length = ecg.length - 1 := by
    rw [List.length_map, pyDiff_length, hlen]
  have hlen_env : (enhance (filt ecg) fs).length
      = max (ecg.length - 1) (window_size fs).toNat := by
    rw [enhance, length_convSame_max _ _ (by omega) (by rw [List.length_replicate]; omega),
      List.length_replicate, hM]
  have hb := findPeaks_mem_bound hp
  rw [hlen_env] at hb
  constructor
  · omega
  · intro hwle
    omega

set_option maxRecDepth 40000 in
/-- C9 (witness for the amended theorem): the 24-sample two-pulse run of the
C2 analysis, `fs = 31`, window 4 which is at most `len - 1 = 23`, so the two
returned peaks are below 23. -/
theorem detect_r_peaks_index_bound_witness :
    (((fun _ : List ℚ => filteredTwoPulse) (List.replicate 24 0)).length
        = (List.replicate 24 (0 : ℚ)).length ∧
      detect_r_peaks (fun _ => filteredTwoPulse) (List.replicate 24 0) 31 (3/5)
        = .ok [2, 20]) ∧
    ∀ p ∈ [2, 20], p < max ((List.replicate 24 (0 : ℚ)).length - 1)
        (window_size 31).toNat ∧
      ((window_size 31).toNat ≤ (List.replicate 24 (0 : ℚ)).length - 1 →
        p < (List.replicate 24 (0 : ℚ)).length - 1) :=
  ⟨⟨by decide, by with_unfolding_all decide⟩,
    detect_r_peaks_index_bound (fun _ => filteredTwoPulse) (List.replicate 24 0) 31
      (3/5) [2, 20] (by decide) (by with_unfolding_all decide)⟩

/-! ## Claim C2 (amended): strictly increasing output with minimal gaps

The scipy distance pruning keeps a peak set in which any two distinct kept
peaks are at least `distance` apart: a kept peak, when processed, discards
every other peak strictly within `distance`, and a discarded peak never
returns. -/

theorem getD_range_map_bool (f : ℕ → Bool) (n k : ℕ) :
    ((List.range n).map f).getD k false = if k < n then f k else false := by
  rw [List.getD_eq_getElem?_getD, List.getElem?_map]
  by_cases h : k < n
  · rw [List.getElem?_range h, if_pos h]
    rfl
  · rw [List.getElem?_eq_none (by rw [List.length_range]; omega), if_neg h]
    rfl

theorem nmsStep_getD_true {peaks : List ℕ} {d : ℤ} {keep : List Bool} {j k : ℕ}
    (h : (nmsStep peaks d keep j).getD k false = true) : keep.getD k false = true := by
  rw [nmsStep] at h
  split at h
  · rw [getD_range_map_bool] at h
    split at h
    · split at h
      · exact absurd h (by simp)
      · exact h
    · exact absurd h (by simp)
  · exact h

theorem nmsFold_mono {peaks : List ℕ} {d : ℤ} :
    ∀ (prio : List ℕ) (keep : List Bool) (k : ℕ),
      (prio.foldl (nmsStep peaks d) keep).getD k false = true →
      keep.getD k false = true := by
  intro prio
  induction prio with
  | nil => intro keep k h; exact h
  | cons j rest ih =>
    intro keep k h
    exact nmsStep_getD_true (ih _ _ h)

theorem nmsFold_suppress {peaks : List ℕ} {d : ℤ} :
    ∀ (prio : List ℕ) (keep : List Bool), ∀ j ∈ prio,
      (prio.foldl (nmsStep peaks d) keep).getD j false = true →
      ∀ k, k ≠ j → |((peaks.getD k 0 : ℤ) - (peaks.getD j 0 : ℤ))| < d →
      (prio.foldl (nmsStep peaks d) keep).getD k false = false := by
  intro prio
  induction prio with
  | nil => intro keep j hj; simp at hj
  | cons j₀ rest ih =>
    intro keep j hj hjt k hk hclose
    rcases List.mem_cons.mp hj with rfl | hjr
    · -- j = j₀ : processed first in this round
      have hmid : (nmsStep peaks d keep j).getD j false = true :=
        nmsFold_mono rest _ j hjt
      rw [nmsStep] at hmid
      by_cases hkj : keep.getD j false
      · have hmidk : (nmsStep peaks d keep j).getD k false = false := by
          rw [nmsStep, if_pos hkj, getD_range_map_bool]
          split
          · rw [if_pos ⟨hk, hclose⟩]
          · rfl
        rcases Bool.eq_false_or_eq_true
            ((List.foldl (nmsStep peaks d) (nmsStep peaks d keep j) rest).getD k false)
          with ht | hf
        · rw [nmsFold_mono rest _ k ht] at hmidk
          exact absurd hmidk (by simp)
        · exact hf
      · rw [if_neg hkj] at hmid
        rw [hmid] at hkj
        exact absurd rfl hkj
    · exact ih _ j hjr hjt k hk hclose

theorem nms_kept_pairwise {peaks : List ℕ} {prio : List ℕ} {d : ℤ}
    (hcov : ∀ k < peaks.length, k ∈ prio) {i j : ℕ}
    (hi : i < peaks.length) (hj : j < peaks.length) (hij : i ≠ j)
    (hki : (nmsKeep peaks prio d).getD i false = true)
    (hkj : (nmsKeep peaks prio d).getD j false = true) :
    d ≤ |((peaks.getD i 0 : ℤ) - (peaks.getD j 0 : ℤ))| := by
  by_contra hlt
  push_neg at hlt
  have := nmsFold_suppress prio _ i (hcov i hi) hki j (Ne.symm hij)
    (by rw [abs_sub_comm]; exact hlt)
  rw [nmsKeep] at hkj
  rw [this] at hkj
  exact absurd hkj (by simp)

theorem mem_insertBy {le : ℕ → ℕ → Bool} {a x : ℕ} :
    ∀ {l : List ℕ}, x ∈ insertBy le a l ↔ x = a ∨ x ∈ l := by
  intro l
  induction l with
  | nil => simp [insertBy]
  | cons b t ih =>
    rw [insertBy]
    split
    · simp
    · simp only [List.mem_cons, ih]
      tauto

theorem mem_sortBy {le : ℕ → ℕ → Bool} {x : ℕ} :
    ∀ {l : List ℕ}, x ∈ sortBy le l ↔ x ∈ l := by
  intro l
  induction l with
  | nil => simp [sortBy]
  | cons b t ih =>
    rw [sortBy, mem_insertBy]
    simp [ih]

theorem argsortDesc_cover (vals : List ℚ) :
    ∀ k < vals.length, k ∈ argsortDesc vals := by
  intro k hk
  rw [argsortDesc, mem_sortBy]
  exact List.mem_range.mpr hk

theorem mem_applyKeep {peaks : List ℕ} {keep : List Bool} {a : ℕ}
    (h : a ∈ applyKeep peaks keep) :
    ∃ i, i < peaks.length ∧ peaks.getD i 0 = a ∧ keep.getD i false = true := by
  rw [applyKeep] at h
  obtain ⟨pb, hpb, hite⟩ := List.mem_filterMap.mp h
  by_cases hb : pb.2
  · rw [if_pos hb, Option.some_inj] at hite
    obtain ⟨n, hn, hzn⟩ := List.mem_iff_getElem.mp hpb
    rw [List.getElem_zip] at hzn
    have hnp : n < peaks.length := by
      rw [List.length_zip] at hn
      omega
    have hnk : n < keep.length := by
      rw [List.length_zip] at hn
      omega
    refine ⟨n, hnp, ?_, ?_⟩
    · rw [List.getD_eq_getElem _ _ hnp]
      rw [show peaks[n] = pb.1 from congrArg Prod.fst hzn]
      exact hite
    · rw [List.getD_eq_getElem _ _ hnk]
      rw [show keep[n] = pb.2 from congrArg Prod.snd hzn]
      exact hb
  · rw [if_neg hb] at hite
    exact absurd hite (by simp)

theorem applyKeep_sublist (peaks : List ℕ) :
    ∀ keep : List Bool, List.Sublist (applyKeep peaks keep) peaks := by
  induction peaks with
  | nil => intro keep; simp [applyKeep]
  | cons p ps ih =>
    intro keep
    cases keep with
    | nil => simp [applyKeep]
    | cons b bs =>
      rw [applyKeep, List.zip_cons_cons, List.filterMap_cons]
      by_cases hb : b
      · rw [hb]
        exact List.Sublist.cons₂ p (ih bs)
      · rw [Bool.eq_false_iff.mpr hb]
        exact List.Sublist.cons p (ih bs)

/-- The output of `findPeaks` is strictly increasing with consecutive gaps of
at least `distance`. -/
theorem findPeaks_pairwise (x : List ℚ) (h : ℚ) (d : ℤ) :
    (findPeaks x h d).Pairwise fun a b : ℕ => a < b ∧ d ≤ (b : ℤ) - (a : ℤ) := by
  rw [findPeaks]
  set p1 := (localMaxima x).filter fun p => decide (h ≤ x.getD p 0) with hp1
  set keep := nmsKeep p1 (argsortDesc (p1.map fun p => x.getD p 0)) d with hkeep
  have hso : p1.Pairwise (· < ·) :=
    List.Pairwise.sublist (List.filter_sublist _) (localMaximaAux_pairwise _ _)
  have houtso : (applyKeep p1 keep).Pairwise (· < ·) :=
    List.Pairwise.sublist (applyKeep_sublist p1 keep) hso
  refine houtso.imp_of_mem ?_
  intro a b ha hb hab
  refine ⟨hab, ?_⟩
  obtain ⟨i, hi, hpi, hki⟩ := mem_applyKeep ha
  obtain ⟨j, hj, hpj, hkj⟩ := mem_applyKeep hb
  have hij : i ≠ j := by
    intro hEq
    rw [hEq, hpj] at hpi
    omega
  have hcov : ∀ k < p1.length, k ∈ argsortDesc (p1.map fun p => x.getD p 0) := by
    intro k hk
    exact argsortDesc_cover _ k (by rw [List.length_map]; exact hk)
  have hd := nms_kept_pairwise hcov hi hj hij hki hkj
  rw [hpi, hpj] at hd
  have habz : (a : ℤ) < (b : ℤ) := by exact_mod_cast hab
  calc d ≤ |((a : ℤ) - (b : ℤ))| := hd
    _ = (b : ℤ) - (a : ℤ) := by rw [abs_sub_comm]; exact abs_of_pos (by omega)

/-- C2 (amended).  Every successful `detect_r_peaks` run returns a strictly
increasing index sequence whose consecutive gaps are at least
`int(0.6 * fs)` samples — truncation, as in line 52 of the source, not
rounding. -/
theorem detect_r_peaks_increasing_min_gap (filt : List ℚ → List ℚ) (ecg : List ℚ)
    (fs tf : ℚ) (peaks : List ℕ)
    (hok : detect_r_peaks filt ecg fs tf = .ok peaks) :
    peaks.Pairwise fun a b : ℕ => a < b ∧ pyTrunc (6 / 10 * fs) ≤ (b : ℤ) - (a : ℤ) := by
  obtain ⟨-, -, rfl⟩ := detect_ok_inv hok
  exact findPeaks_pairwise _ _ _

set_option maxRecDepth 40000 in
/-- C2 (witness for the amended theorem): the two-pulse run at `fs = 31`
returns `[2, 20]`, strictly increasing with gap `18 = int(0.6 * 31)`. -/
theorem detect_r_peaks_increasing_min_gap_witness :
    detect_r_peaks (fun _ => filteredTwoPulse) (List.replicate 24 0) 31 (3/5)
      = .ok [2, 20] ∧
    List.Pairwise (fun a b : ℕ => a < b ∧ pyTrunc (6 / 10 * 31) ≤ (b : ℤ) - (a : ℤ))
      [2, 20] :=
  ⟨by with_unfolding_all decide,
    detect_r_peaks_increasing_min_gap (fun _ => filteredTwoPulse)
      (List.replicate 24 0) 31 (3/5) [2, 20] (by with_unfolding_all decide)⟩

/-! ## Claim C10: invariance under positive scaling of the input

Every stage after the (linear) filter transforms a positive scaling `c` of
the signal into a positive scaling `c^2` of the envelope, and both the height
threshold and every comparison made by `find_peaks` scale along, so the
returned indices are unchanged. -/

theorem getD_map_mul (k : ℚ) (x : List ℚ) (t : ℕ) :
    (x.map fun v => k * v).getD t 0 = k * x.getD t 0 := by
  rw [List.getD_eq_getElem?_getD, List.getD_eq_getElem?_getD, List.getElem?_map]
  by_cases h : t < x.length
  · rw [List.getElem?_eq_getElem h]
    rfl
  · rw [List.getElem?_eq_none (by omega)]
    simp

theorem plateauEnd_scale {k : ℚ} (hk : k ≠ 0) (x : List ℚ) (i : ℕ) :
    ∀ fuel j, plateauEnd (x.map fun v => k * v) i j fuel = plateauEnd x i j fuel := by
  intro fuel
  induction fuel with
  | zero => intro j; rfl
  | succ f ih =>
    intro j
    rw [plateauEnd, plateauEnd]
    simp only [List.length_map, getD_map_mul, mul_right_inj' hk]
    split
    · exact ih (j + 1)
    · rfl

theorem localMaximaAux_scale {k : ℚ} (hk : 0 < k) (x : List ℚ) :
    ∀ fuel i, localMaximaAux (x.map fun v => k * v) i fuel = localMaximaAux x i fuel := by
  intro fuel
  induction fuel with
  | zero => intro i; rfl
  | succ f ih =>
    intro i
    rw [localMaximaAux, localMaximaAux]
    simp only [List.length_map, getD_map_mul, plateauEnd_scale hk.ne' x,
      mul_lt_mul_left hk]
    split
    · split
      · split
        · rw [ih]
        · exact ih _
      · exact ih _
    · rfl

theorem localMaxima_scale {k : ℚ} (hk : 0 < k) (x : List ℚ) :
    localMaxima (x.map fun v => k * v) = localMaxima x := by
  rw [localMaxima, localMaxima, List.length_map, localMaximaAux_scale hk]

theorem foldl_max_scale {k : ℚ} (hk : 0 ≤ k) :
    ∀ (t : List ℚ) (acc : ℚ),
      (t.map fun v => k * v).foldl max (k * acc) = k * t.foldl max acc := by
  intro t
  induction t with
  | nil => intro acc; rfl
  | cons y ys ih =>
    intro acc
    rw [List.map_cons, List.foldl_cons, List.foldl_cons, ← mul_max_of_nonneg _ _ hk]
    exact ih (max acc y)

theorem npMax_scale {k : ℚ} (hk : 0 ≤ k) (x : List ℚ) :
    npMax (x.map fun v => k * v) = k * npMax x := by
  cases x with
  | nil => rw [npMax]; exact (mul_zero k).symm
  | cons y ys =>
    rw [List.map_cons, npMax, npMax]
    exact foldl_max_scale hk ys y

theorem dot_mul_left (k : ℚ) :
    ∀ (xs ys : List ℚ), dot (xs.map fun v => k * v) ys = k * dot xs ys := by
  intro xs
  induction xs with
  | nil => intro ys; cases ys <;> simp [dot]
  | cons x t ih =>
    intro ys
    cases ys with
    | nil => simp [dot]
    | cons y u =>
      show k * x * y + dot (t.map fun v => k * v) u = k * (x * y + dot t u)
      rw [ih]
      ring

theorem convFull_scale (k : ℚ) (a v : List ℚ) :
    convFull (a.map fun t => k * t) v = (convFull a v).map fun t => k * t := by
  rw [convFull, convFull, List.length_map, List.map_map]
  refine List.map_congr_left ?_
  intro n _
  show dot (((a.map fun t => k * t).take (n + 1)).reverse) _ = k * _
  rw [← List.map_take, ← List.map_reverse, dot_mul_left]

theorem convSame_scale (k : ℚ) (a v : List ℚ) :
    convSame (a.map fun t => k * t) v = (convSame a v).map fun t => k * t := by
  rw [convSame, convSame, List.length_map, convFull_scale, ← List.map_drop, ← List.map_take]

theorem pyDiff_map_mul (c : ℚ) :
    ∀ l : List ℚ, pyDiff (l.map fun v => c * v) = (pyDiff l).map fun v => c * v := by
  intro l
  induction l with
  | nil => rfl
  | cons a t ih =>
    cases t with
    | nil => rfl
    | cons b u =>
      rw [List.map_cons, List.map_cons, pyDiff_cons₂]
      rw [show (c * b :: u.map fun v => c * v) = (b :: u).map (fun v => c * v) from rfl]
      rw [ih, pyDiff_cons₂, List.map_cons, mul_sub]

theorem enhance_scale (c : ℚ) (filtered : List ℚ) (fs : ℚ) :
    enhance (filtered.map fun v => c * v) fs
      = (enhance filtered fs).map fun t => c ^ 2 * t := by
  rw [enhance, enhance, pyDiff_map_mul, List.map_map]
  have hsq : ((fun t : ℚ => t ^ 2) ∘ fun v => c * v)
      = (fun t : ℚ => c ^ 2 * t) ∘ fun t : ℚ => t ^ 2 := by
    funext t
    show (c * t) ^ 2 = c ^ 2 * t ^ 2
    ring
  rw [hsq, ← List.map_map, convSame_scale]

theorem argsortDesc_scale {k : ℚ} (hk : 0 < k) (vals : List ℚ) :
    argsortDesc (vals.map fun v => k * v) = argsortDesc vals := by
  rw [argsortDesc, argsortDesc, List.length_map]
  congr 1
  funext a b
  simp only [getD_map_mul, mul_lt_mul_left hk, mul_right_inj' hk.ne']

theorem findPeaks_scale {k : ℚ} (hk : 0 < k) (x : List ℚ) (h : ℚ) (d : ℤ) :
    findPeaks (x.map fun v => k * v) (k * h) d = findPeaks x h d := by
  rw [findPeaks, findPeaks, localMaxima_scale hk]
  have hpred : (fun p => decide (k * h ≤ (x.map fun v => k * v).getD p 0))
      = fun p => decide (h ≤ x.getD p 0) := by
    funext p
    simp only [getD_map_mul, mul_le_mul_left hk]
  rw [hpred]
  have hheights : ((localMaxima x).filter (fun p => decide (h ≤ x.getD p 0))).map
        (fun p => (x.map fun v => k * v).getD p 0)
      = (((localMaxima x).filter (fun p => decide (h ≤ x.getD p 0))).map
          (fun p => x.getD p 0)).map fun v => k * v := by
    rw [List.map_map]
    exact List.map_congr_left fun p _ => getD_map_mul k x p
  rw [hheights, argsortDesc_scale hk]

/-- C10.  For every positive scale factor `c`, scaling the input pointwise
leaves the detected beat indices unchanged, provided the filter stage commutes
with the scaling — which the real `butter`/`filtfilt` stage does, being linear
in the signal (the hypothesis `hlin` records exactly this library fact). -/
theorem detect_r_peaks_scale_invariant (filt : List ℚ → List ℚ) (ecg : List ℚ)
    (fs tf c : ℚ) (hc : 0 < c)
    (hlin : filt (ecg.map fun v => c * v) = (filt ecg).map fun v => c * v) :
    detect_r_peaks filt (ecg.map fun v => c * v) fs tf
      = detect_r_peaks filt ecg fs tf := by
  rw [detect_r_peaks, detect_r_peaks, List.length_map]
  by_cases h1 : butterBandCheck fs = false
  · rw [if_pos h1, if_pos h1]
  rw [if_neg h1, if_neg h1]
  by_cases h2 : ecg.length ≤ 15
  · rw [if_pos h2, if_pos h2]
  rw [if_neg h2, if_neg h2]
  by_cases h3 : pyTrunc (6 / 10 * fs) < 1
  · rw [if_pos h3, if_pos h3]
  rw [if_neg h3, if_neg h3]
  congr 1
  have hc2 : (0 : ℚ) < c ^ 2 := by positivity
  rw [hlin, enhance_scale, npMax_scale hc2.le, mul_left_comm tf (c ^ 2) _]
  exact findPeaks_scale hc2 _ _ _

/-- C10 (witness): doubling the 16-sample alternating signal (identity filter
stand-in, which is linear) yields the same detection result. -/
theorem detect_r_peaks_scale_invariant_witness :
    ((0 : ℚ) < 2 ∧
      (fun l : List ℚ => l) (ecgAlt16.map fun v => 2 * v)
        = ((fun l : List ℚ => l) ecgAlt16).map fun v => 2 * v) ∧
    detect_r_peaks (fun l => l) (ecgAlt16.map fun v => 2 * v) 250 (3/5)
      = detect_r_peaks (fun l => l) ecgAlt16 250 (3/5) :=
  ⟨⟨by norm_num, rfl⟩,
    detect_r_peaks_scale_invariant (fun l => l) ecgAlt16 250 (3/5) 2
      (by norm_num) rfl⟩

end ECG
